import Mathlib

set_option linter.unusedVariables false

/-!
Verification development for the cryri job-submission CLI.

We shallowly embed the repository's pure core:
* `cryri/validators.py` and `cryri/utils.py`: `expand_vars_and_user`
  (recursive environment-variable and home-directory expansion over nested
  configuration values) and `sanitize_dir_path` (strict assert variant in
  `validators.py`, lenient parent-fallback variant in `utils.py`);
* `cryri/utils.py` and `cryri/main.py`: `create_job_description`;
* `cryri/job_manager.py`: the bounded log-fetch polling loop of
  `JobManager.show_logs`.

The environment snapshot is a `List (String × String)` association list,
filesystem facts are a `FileSystem` record of boolean oracles, and paths are
lists of components.  String leaves are processed with models of Python's
`os.path.expandvars` and `os.path.expanduser`, translated from the CPython
`posixpath` algorithms (scan for `$word` / `${name}` tokens left to right,
substitute known names, leave unknown tokens literally; substitute a leading
`~` or `~user` marker using the home directory / user database).
-/

namespace Cryri

/-- Association-list lookup, modelling `dict.get` / `os.environ.get`:
the first binding of the key wins, `none` when the key is absent. -/
def lookupEnv : List (String × String) → String → Option String
  | [], _ => none
  | (k, v) :: rest, n => if k = n then some v else lookupEnv rest n

/-- ASCII word characters, the `\w` class (with `re.ASCII`) used by
`posixpath.expandvars` to delimit a bare `$NAME` token. -/
def isWordChar (c : Char) : Bool := c.isAlpha || c.isDigit || c = '_'

/-- Substring test on character lists (used only to state properties of
diagnostic messages). -/
def containsSub (pat : List Char) : List Char → Bool
  | [] => pat.isPrefixOf []
  | c :: rest => pat.isPrefixOf (c :: rest) || containsSub pat rest

/-- Model of CPython `posixpath.expandvars` on the character list of the
input: scan left to right; at `$` try to read `{name}` (any characters up
to the first `}`) or a nonempty run of word characters; if the name is bound
in the environment snapshot substitute its value (the value itself is not
rescanned), otherwise leave the whole token as literal text; a `$` that
starts no token is kept and scanning continues after it. -/
def expandVarsAux (env : List (String × String)) (l : List Char) : List Char :=
  match l with
  | [] => []
  | c :: rest =>
    if c = '$' then
      if rest.head? = some '{' then
        let inner := rest.tail
        let nm := inner.takeWhile (fun c => c ≠ '}')
        match h : inner.dropWhile (fun c => c ≠ '}') with
        | '}' :: rest4 =>
          match lookupEnv env (String.mk nm) with
          | some v => v.data ++ expandVarsAux env rest4
          | none => '$' :: '{' :: nm ++ '}' :: expandVarsAux env rest4
        | _ => '$' :: '{' :: expandVarsAux env inner
      else
        let nm := rest.takeWhile isWordChar
        if nm.isEmpty then '$' :: expandVarsAux env rest
        else
          match lookupEnv env (String.mk nm) with
          | some v => v.data ++ expandVarsAux env (rest.dropWhile isWordChar)
          | none => '$' :: nm ++ expandVarsAux env (rest.dropWhile isWordChar)
    else c :: expandVarsAux env rest
termination_by l.length
decreasing_by
  all_goals simp_wf
  all_goals
    have hlen : ∀ (p : Char → Bool) (l : List Char), (l.dropWhile p).length ≤ l.length := by
      intro p l
      induction l with
      | nil => simp
      | cons a t ih =>
        by_cases hp : p a
        · simp [List.dropWhile, hp]; omega
        · simp [List.dropWhile, hp]
  all_goals first
    | omega
    | (have h3 : rest.tail.length ≤ rest.length := by cases rest <;> simp
       have h2 : rest4.length < rest.tail.length := by
         have key : ∀ (p : Char → Bool) (l r : List Char) (c : Char),
             l.dropWhile p = c :: r → r.length < l.length := by
           intro p l r c hh
           have h6 := hlen p l
           rw [hh] at h6
           simp at h6
           omega
         apply key
         assumption
       omega)
    | (have h3 : rest.tail.length ≤ rest.length := by cases rest <;> simp
       omega)
    | (have h4 := hlen isWordChar rest
       omega)

/-- `os.path.expandvars` on strings. -/
def os_path_expandvars (env : List (String × String)) (s : String) : String :=
  String.mk (expandVarsAux env s.data)

/-- Strip trailing `/` characters, modelling Python `str.rstrip('/')`. -/
def rstripSlash (l : List Char) : List Char :=
  (l.reverse.dropWhile (fun c => c = '/')).reverse

/-- Model of CPython `posixpath.expanduser`: if the string starts with `~`,
the characters up to the first `/` name a user (`~` alone names the current
user, whose home directory is `home`; `~name` is looked up in the user
database `users`, and the string is returned unchanged when the user is
unknown); the marker is replaced by the home directory with trailing
slashes stripped, and an empty result becomes `/`. -/
def os_path_expanduser (home : String) (users : List (String × String)) (s : String) : String :=
  if s.data.head? = some '~' then
    let rest := s.data.tail
    let nm := rest.takeWhile (fun c => c ≠ '/')
    let tl := rest.dropWhile (fun c => c ≠ '/')
    let userhome : Option String :=
      if nm.isEmpty then some home else lookupEnv users (String.mk nm)
    match userhome with
    | none => s
    | some uh =>
      let r := rstripSlash uh.data ++ tl
      if r.isEmpty then "/" else String.mk r
  else s

/-- The string-leaf branch of `expand_vars_and_user`
(`cryri/validators.py` lines 38-50): expand environment variables, then the
home marker. -/
def expandStringLeaf (env : List (String × String)) (home : String)
    (users : List (String × String)) (s : String) : String :=
  os_path_expanduser home users (os_path_expandvars env s)

/-- The string-leaf branch together with its diagnostic: the boolean is
`true` exactly when the code logs the "value still contains a `$`" warning
(`cryri/validators.py` lines 42-48). -/
def expandStringLeafLogged (env : List (String × String)) (home : String)
    (users : List (String × String)) (s : String) : String × Bool :=
  let r := expandStringLeaf env home users s
  if '$' ∈ r.data then (r, true) else (r, false)

/-- Python values handled by `expand_vars_and_user`: `None`, strings, other
scalars (modelled by integers and booleans), tuples, lists and dicts with
their insertion order. -/
inductive Value where
  | vnone : Value
  | vstr : String → Value
  | vint : Int → Value
  | vbool : Bool → Value
  | vtuple : List Value → Value
  | vlist : List Value → Value
  | vdict : List (Value × Value) → Value

/-- `expand_vars_and_user` (`cryri/validators.py` lines 7-50, identical in
`cryri/utils.py` lines 77-115): `None` maps to `None`; tuples, lists and
dicts are rebuilt element-wise (dict values only, keys kept); strings go
through variable and home expansion; other scalars are returned unchanged. -/
def expand_vars_and_user (env : List (String × String)) (home : String)
    (users : List (String × String)) : Value → Value
  | Value.vnone => Value.vnone
  | Value.vtuple xs =>
    Value.vtuple (xs.attach.map (fun x => expand_vars_and_user env home users x.1))
  | Value.vlist xs =>
    Value.vlist (xs.attach.map (fun x => expand_vars_and_user env home users x.1))
  | Value.vdict kvs =>
    Value.vdict (kvs.attach.map (fun kv => (kv.1.1, expand_vars_and_user env home users kv.1.2)))
  | Value.vstr s => Value.vstr (expandStringLeaf env home users s)
  | Value.vint n => Value.vint n
  | Value.vbool b => Value.vbool b
termination_by v => sizeOf v
decreasing_by
  · have := List.sizeOf_lt_of_mem x.2
    simp at *
    omega
  · have := List.sizeOf_lt_of_mem x.2
    simp at *
    omega
  · have := List.sizeOf_lt_of_mem kv.2
    cases h : kv.1 with
    | mk a b => rw [h] at this; simp at *; omega

/-- A string containing no `$` and not beginning with `~` — the leaves for
which expansion is a no-op. -/
def cleanStr (s : String) : Bool :=
  !(s.data.contains '$') && !(s.data.head? == some '~')

/-- A value all of whose string leaves (dict keys included) are clean. -/
def clean : Value → Bool
  | Value.vnone => true
  | Value.vstr s => cleanStr s
  | Value.vint _ => true
  | Value.vbool _ => true
  | Value.vtuple xs => xs.attach.all (fun x => clean x.1)
  | Value.vlist xs => xs.attach.all (fun x => clean x.1)
  | Value.vdict kvs => kvs.attach.all (fun kv => clean kv.1.1 && clean kv.1.2)
termination_by v => sizeOf v
decreasing_by
  · have := List.sizeOf_lt_of_mem x.2
    simp at *
    omega
  · have := List.sizeOf_lt_of_mem x.2
    simp at *
    omega
  · have := List.sizeOf_lt_of_mem kv.2
    cases h : kv.1 with
    | mk a b => rw [h] at this; simp at *; omega
  · have := List.sizeOf_lt_of_mem kv.2
    cases h : kv.1 with
    | mk a b => rw [h] at this; simp at *; omega

/-- A nonempty run of word characters: the shape of a bare `$NAME` token. -/
def wordName (l : List Char) : Bool := !l.isEmpty && l.all isWordChar

/-- A character list that does not begin with a word character, so that it
cannot extend a preceding `$NAME` token. -/
def headNotWord (l : List Char) : Bool :=
  match l.head? with
  | none => true
  | some c => !isWordChar c

/-- The keys of a dict value, in insertion order. -/
def dictKeys : Value → List Value
  | Value.vdict kvs => kvs.map Prod.fst
  | _ => []

/-- Split a character list at `/` separators. -/
def splitPathAux : List Char → List Char → List String
  | [], acc => [String.mk acc.reverse]
  | c :: rest, acc =>
    if c = '/' then String.mk acc.reverse :: splitPathAux rest []
    else splitPathAux rest (c :: acc)

/-- Split a POSIX path string into its nonempty components. -/
def splitPath (s : String) : List String :=
  (splitPathAux s.data []).filter (fun c => c ≠ "")

/-- Lexical normalization of a component list: drop `.` components and let
`..` pop the previous component (at the root `..` stays at the root), as
`Path.resolve` does on a filesystem without symbolic links. -/
def normalizeComponents (l : List String) : List String :=
  l.foldl (fun acc c => if c = "." then acc else if c = ".." then acc.dropLast else acc ++ [c]) []

/-- A component that a normalized absolute path may contain. -/
def goodComp (c : String) : Bool := (c != "") && (c != ".") && (c != "..")

/-- The filesystem facts `sanitize_dir_path` consults: the current working
directory (as a normalized component list) and, per absolute normalized
path, whether it exists and whether it is a directory. -/
structure FileSystem where
  cwd : List String
  isDirAt : List String → Bool
  presentAt : List String → Bool

/-- The working directory is a normalized absolute path. -/
def FileSystem.wf (fs : FileSystem) : Prop := ∀ c ∈ fs.cwd, goodComp c = true

/-- `Path(p).resolve()` (without symbolic links): interpret `p` against the
working directory when it is relative, and normalize. -/
def resolvePath (fs : FileSystem) (s : String) : List String :=
  normalizeComponents ((if s.data.head? = some '/' then [] else fs.cwd) ++ splitPath s)

/-- Join components with `/` separators. -/
def joinComps : List String → String
  | [] => ""
  | [c] => c
  | c :: rest => c ++ "/" ++ joinComps rest

/-- Render an absolute component list as a path string (`str(Path(...))`). -/
def pathToString (cs : List String) : String := "/" ++ joinComps cs

/-- `sanitize_dir_path` of `cryri/utils.py` lines 118-132 (lenient policy):
`None` is a no-op; otherwise resolve, and when the resolved path is not a
directory substitute its parent (`Path.parent` drops the last component). -/
def sanitize_dir_path (fs : FileSystem) : Option String → Option String
  | none => none
  | some p =>
    let q := resolvePath fs p
    if fs.isDirAt q then some (pathToString q) else some (pathToString q.dropLast)

/-- The single assertion message of `cryri/validators.py` line 64. -/
def strictErrMsg (q : List String) : String :=
  "\"" ++ pathToString q ++ "\" is not a directory or path does not exist!"

/-- `sanitize_dir_path` of `cryri/validators.py` lines 53-66 (strict
policy): `None` is a no-op; otherwise resolve and assert the resolved path
is a directory, failing with the fixed message of line 64. -/
def validators_sanitize_dir_path (fs : FileSystem) :
    Option String → Except String (Option String)
  | none => Except.ok none
  | some p =>
    let q := resolvePath fs p
    if fs.isDirAt q then Except.ok (some (pathToString q))
    else Except.error (strictErrMsg q)

/-- `str.replace(old, new)` on character lists: replace non-overlapping
occurrences left to right (for nonempty `pat`; the repository only replaces
nonempty separators and prefixes). -/
def replaceAll (pat repl : List Char) (l : List Char) : List Char :=
  if hpat : pat.isEmpty then l
  else
    match l with
    | [] => []
    | c :: rest =>
      if pat.isPrefixOf (c :: rest) then
        repl ++ replaceAll pat repl ((c :: rest).drop pat.length)
      else c :: replaceAll pat repl rest
termination_by l.length
decreasing_by
  all_goals simp_wf
  all_goals
    have hp1 : 1 ≤ pat.length := by
      cases pat
      · simp at hpat
      · simp
    omega

/-- `ContainerConfig` (`cryri/main.py` lines 30-36 and `cryri/config.py`
lines 8-27, merged field set). -/
structure ContainerConfig where
  image : Option String
  command : Option String
  environment : Option (List (String × String))
  work_dir : String
  run_from_copy : Bool
  cry_copy_dir : Option String
  exclude_from_copy : List String

/-- `CloudConfig` (`cryri/main.py` lines 39-45 and `cryri/config.py`
lines 30-37, merged field set: `tags` exists in the `main.py` revision,
`processes_per_worker` in the `config.py` revision). -/
structure CloudConfig where
  region : String
  instance_type : Option String
  n_workers : Int
  priority : String
  description : Option String
  tags : List String
  processes_per_worker : Int

/-- `CryConfig`. -/
structure CryConfig where
  container : ContainerConfig
  cloud : CloudConfig

/-- The base-description derivation of `cryri/utils.py` lines 17-24: when no
explicit description is set, strip the fixed `/home/jovyan` prefix when the
work directory starts with it, then replace every `/` with `-`. -/
def jobDescriptionBase (cfg : CryConfig) : String :=
  let wd := cfg.container.work_dir
  let stripped :=
    if ("/home/jovyan").data.isPrefixOf wd.data
    then String.mk (wd.data.drop ("/home/jovyan").data.length)
    else wd
  String.mk (replaceAll ("/").data ("-").data stripped.data)

/-- Team-name resolution of `cryri/utils.py` lines 26-30 (identical in
`cryri/main.py` lines 136-140): prefer `TEAM_NAME` from the per-job
environment mapping, fall back to the process environment. -/
def resolveTeamName (procEnv : List (String × String)) (cfg : CryConfig) : Option String :=
  match cfg.container.environment with
  | some env =>
    match lookupEnv env "TEAM_NAME" with
    | some t => some t
    | none => lookupEnv procEnv "TEAM_NAME"
  | none => lookupEnv procEnv "TEAM_NAME"

/-- `create_job_description` of `cryri/utils.py` lines 16-35: explicit
description or derived base, then `" #team"` appended when a team name
resolves. -/
def create_job_description (procEnv : List (String × String)) (cfg : CryConfig) : String :=
  let jd :=
    match cfg.cloud.description with
    | some d => d
    | none => jobDescriptionBase cfg
  match resolveTeamName procEnv cfg with
  | some t => jd ++ " #" ++ t
  | none => jd

/-- `' '.join(f"#{tag}" for tag in tags)`. -/
def hashTagJoin : List String → String
  | [] => ""
  | [t] => "#" ++ t
  | t :: rest => "#" ++ t ++ " " ++ hashTagJoin rest

/-- `create_job_description` of `cryri/main.py` lines 135-150: the base uses
the resolved work directory with `/home/jovyan/` removed everywhere and `/`
replaced by `-`; a resolved team name is prepended as `"team-"`; non-empty
tags are appended as space-separated `#tag` tokens. -/
def main_create_job_description (fs : FileSystem) (procEnv : List (String × String))
    (cfg : CryConfig) : String :=
  let team := resolveTeamName procEnv cfg
  let jd0 :=
    match cfg.cloud.description with
    | some d => d
    | none =>
      String.mk (replaceAll ("/").data ("-").data
        (replaceAll ("/home/jovyan/").data [] (pathToString (resolvePath fs cfg.container.work_dir)).data))
  let jd1 :=
    match team with
    | some t => t ++ "-" ++ jd0
    | none => jd0
  if cfg.cloud.tags.isEmpty then jd1
  else jd1 ++ " " ++ hashTagJoin cfg.cloud.tags

/-- The same configuration with the tag list emptied. -/
def withoutTags (cfg : CryConfig) : CryConfig :=
  { cfg with cloud := { cfg.cloud with tags := [] } }

/-- The job statuses `JobManager.show_logs` treats as pending
(`cryri/job_manager.py` line 59). -/
def pendingStatuses : List String := ["Pending", "Inqueue", "Starting"]

/-- The polling loop of `JobManager.show_logs` (`cryri/job_manager.py`
lines 55-67): `statuses i` is the status returned by the `i`-th status
query, `n` the current retry count.  Returns the retry count at exit and
whether the retry budget was exhausted (the "max retries reached" branch). -/
def showLogsPoll (statuses : Nat → String) (fetchLogsMaxRetries : Nat) (n : Nat) : Nat × Bool :=
  if pendingStatuses.contains (statuses n) then
    if h : fetchLogsMaxRetries < n then (n, true)
    else showLogsPoll statuses fetchLogsMaxRetries (n + 1)
  else (n, false)
termination_by fetchLogsMaxRetries + 1 - n
decreasing_by
  simp_wf
  omega

/-- A concrete filesystem: working directory `/mock/dir`, which is the only
directory; every path exists. -/
def fsMock : FileSystem :=
  FileSystem.mk ["mock", "dir"] (fun l => decide (l = ["mock", "dir"])) (fun _ => true)

/-- A concrete filesystem on which no path exists. -/
def fsNoFile : FileSystem := FileSystem.mk [] (fun _ => false) (fun _ => false)

/-- A concrete filesystem on which `/a/b.txt` exists but is a plain file. -/
def fsPlainFile : FileSystem :=
  FileSystem.mk [] (fun l => decide (l ≠ ["a", "b.txt"])) (fun _ => true)

/-- A concrete configuration: work directory `/test/dir`, no explicit
description, no environment, no tags. -/
def cfgTestDir : CryConfig :=
  CryConfig.mk
    (ContainerConfig.mk none none none "/test/dir" false none [])
    (CloudConfig.mk "SR006" none 1 "medium" none [] 1)

/-- A concrete configuration whose per-job environment carries
`TEAM_NAME=test-team`. -/
def cfgTeam : CryConfig :=
  CryConfig.mk
    (ContainerConfig.mk none none (some [("TEAM_NAME", "test-team")]) "/test/dir" false none [])
    (CloudConfig.mk "SR006" none 1 "medium" none [] 1)

/-- A concrete configuration with an explicit description and two tags. -/
def cfgTags : CryConfig :=
  CryConfig.mk
    (ContainerConfig.mk none none none "/test/dir" false none [])
    (CloudConfig.mk "SR006" none 1 "medium" (some "desc") ["tag1", "tag2"] 1)

end Cryri

namespace Cryri

theorem expand_vnone (env : List (String × String)) (home : String)
    (users : List (String × String)) :
    expand_vars_and_user env home users Value.vnone = Value.vnone := by
  rw [expand_vars_and_user]

theorem expand_vstr (env : List (String × String)) (home : String)
    (users : List (String × String)) (s : String) :
    expand_vars_and_user env home users (Value.vstr s)
      = Value.vstr (expandStringLeaf env home users s) := by
  rw [expand_vars_and_user]

theorem expand_vint (env : List (String × String)) (home : String)
    (users : List (String × String)) (n : Int) :
    expand_vars_and_user env home users (Value.vint n) = Value.vint n := by
  rw [expand_vars_and_user]

theorem expand_vbool (env : List (String × String)) (home : String)
    (users : List (String × String)) (b : Bool) :
    expand_vars_and_user env home users (Value.vbool b) = Value.vbool b := by
  rw [expand_vars_and_user]

theorem expand_vtuple (env : List (String × String)) (home : String)
    (users : List (String × String)) (xs : List Value) :
    expand_vars_and_user env home users (Value.vtuple xs)
      = Value.vtuple (xs.map (expand_vars_and_user env home users)) := by
  rw [expand_vars_and_user]
  simp [List.attach_map_val]

theorem expand_vlist (env : List (String × String)) (home : String)
    (users : List (String × String)) (xs : List Value) :
    expand_vars_and_user env home users (Value.vlist xs)
      = Value.vlist (xs.map (expand_vars_and_user env home users)) := by
  rw [expand_vars_and_user]
  simp [List.attach_map_val]

theorem expand_vdict (env : List (String × String)) (home : String)
    (users : List (String × String)) (kvs : List (Value × Value)) :
    expand_vars_and_user env home users (Value.vdict kvs)
      = Value.vdict (kvs.map (fun kv => (kv.1, expand_vars_and_user env home users kv.2))) := by
  rw [expand_vars_and_user]
  exact congrArg Value.vdict
    (List.attach_map_val kvs (fun kv => (kv.1, expand_vars_and_user env home users kv.2)))

/-- A `$`-free character list is scanned through unchanged. -/
theorem expandVarsAux_cons_ne (env : List (String × String)) (c : Char)
    (rest : List Char) (hc : c ≠ '$') :
    expandVarsAux env (c :: rest) = c :: expandVarsAux env rest := by
  rw [expandVarsAux]
  simp [hc]

theorem expandVarsAux_id (env : List (String × String)) (l : List Char)
    (h : '$' ∉ l) : expandVarsAux env l = l := by
  induction l with
  | nil => rw [expandVarsAux]
  | cons c rest ih =>
    have hc : c ≠ '$' := by
      intro hcc
      exact h (hcc ▸ List.mem_cons_self c rest)
    rw [expandVarsAux_cons_ne env c rest hc]
    rw [ih (fun hm => h (List.mem_cons_of_mem c hm))]

theorem os_path_expandvars_id (env : List (String × String)) (s : String)
    (h : '$' ∉ s.data) : os_path_expandvars env s = s := by
  rw [os_path_expandvars, expandVarsAux_id env s.data h]

theorem os_path_expanduser_id (home : String) (users : List (String × String))
    (s : String) (h : s.data.head? ≠ some '~') :
    os_path_expanduser home users s = s := by
  rw [os_path_expanduser]
  simp [h]

theorem expandStringLeaf_id (env : List (String × String)) (home : String)
    (users : List (String × String)) (s : String) (h : cleanStr s = true) :
    expandStringLeaf env home users s = s := by
  rw [cleanStr] at h
  simp only [Bool.and_eq_true, Bool.not_eq_true', beq_eq_false_iff_ne, ne_eq,
    List.contains_eq_any_beq, List.any_eq_false, beq_iff_eq] at h
  have h1 : '$' ∉ s.data := by
    intro hm
    exact absurd rfl (h.1 '$' hm)
  rw [expandStringLeaf, os_path_expandvars_id env s h1,
    os_path_expanduser_id home users s h.2]

/-- Scanning passes over a `$`-free chunk unchanged. -/
theorem expandVarsAux_append_clean (env : List (String × String))
    (pre l : List Char) (h : '$' ∉ pre) :
    expandVarsAux env (pre ++ l) = pre ++ expandVarsAux env l := by
  induction pre with
  | nil => simp
  | cons c rest ih =>
    have hc : c ≠ '$' := by
      intro hcc
      exact h (hcc ▸ List.mem_cons_self c rest)
    rw [List.cons_append, expandVarsAux_cons_ne env c _ hc,
      ih (fun hm => h (List.mem_cons_of_mem c hm))]
    simp

/-- `takeWhile`/`dropWhile` split an append at the first failing element. -/
theorem takeWhile_append_word (p : Char → Bool) (l₁ l₂ : List Char)
    (h1 : ∀ c ∈ l₁, p c = true) (h2 : ∀ c, l₂.head? = some c → p c = false) :
    (l₁ ++ l₂).takeWhile p = l₁ ∧ (l₁ ++ l₂).dropWhile p = l₂ := by
  induction l₁ with
  | nil =>
    simp only [List.nil_append]
    cases l₂ with
    | nil => simp
    | cons c t =>
      have := h2 c rfl
      simp [List.takeWhile, List.dropWhile, this]
  | cons a t ih =>
    have ha : p a = true := h1 a (List.mem_cons_self a t)
    have iht := ih (fun c hc => h1 c (List.mem_cons_of_mem a hc))
    simp [List.takeWhile, List.dropWhile, ha, iht.1, iht.2]

/-- A recognized bare `$NAME` token at the scan position is substituted with
its value; the value itself is not rescanned. -/
theorem expandVarsAux_token_known (env : List (String × String))
    (nm post : List Char) (v : String) (h1 : wordName nm = true)
    (h2 : headNotWord post = true)
    (h4 : lookupEnv env (String.mk nm) = some v) :
    expandVarsAux env ('$' :: (nm ++ post)) = v.data ++ expandVarsAux env post := by
  rw [wordName] at h1
  simp only [Bool.and_eq_true, Bool.not_eq_true', List.all_eq_true] at h1
  have hnw : ∀ c, post.head? = some c → isWordChar c = false := by
    intro c hc
    rw [headNotWord, hc] at h2
    simpa using h2
  have hsplit := takeWhile_append_word isWordChar nm post h1.2 hnw
  have hnil : nm ≠ [] := by
    intro hn
    rw [hn] at h1
    simp at h1
  have hhead : (nm ++ post).head? ≠ some '{' := by
    cases nm with
    | nil => exact absurd rfl hnil
    | cons a t =>
      intro hcc
      simp only [List.cons_append, List.head?_cons, Option.some.injEq] at hcc
      have := h1.2 a (List.mem_cons_self a t)
      rw [hcc] at this
      simp [isWordChar] at this
  simp only [expandVarsAux, hsplit.1, hsplit.2, hhead, h1.1, h4, if_true, if_false,
    ite_false, ite_true, reduceIte, Bool.false_eq_true]

/-- An unrecognized bare `$NAME` token is left as literal text: neither
substituted nor erased, and scanning continues after it. -/
theorem expandVarsAux_token_unknown (env : List (String × String))
    (nm post : List Char) (h1 : wordName nm = true)
    (h2 : headNotWord post = true)
    (h4 : lookupEnv env (String.mk nm) = none) :
    expandVarsAux env ('$' :: (nm ++ post)) = '$' :: (nm ++ expandVarsAux env post) := by
  rw [wordName] at h1
  simp only [Bool.and_eq_true, Bool.not_eq_true', List.all_eq_true] at h1
  have hnw : ∀ c, post.head? = some c → isWordChar c = false := by
    intro c hc
    rw [headNotWord, hc] at h2
    simpa using h2
  have hsplit := takeWhile_append_word isWordChar nm post h1.2 hnw
  have hnil : nm ≠ [] := by
    intro hn
    rw [hn] at h1
    simp at h1
  have hhead : (nm ++ post).head? ≠ some '{' := by
    cases nm with
    | nil => exact absurd rfl hnil
    | cons a t =>
      intro hcc
      simp only [List.cons_append, List.head?_cons, Option.some.injEq] at hcc
      have := h1.2 a (List.mem_cons_self a t)
      rw [hcc] at this
      simp [isWordChar] at this
  simp only [expandVarsAux, hsplit.1, hsplit.2, hhead, h1.1, h4, if_true, if_false,
    ite_false, ite_true, reduceIte, Bool.false_eq_true]
  simp

/-- The normalization fold only ever emits components of the input that are
neither empty nor `.` nor `..`. -/
theorem normalizeComponents_aux_good (l : List String) :
    ∀ acc : List String, (∀ c ∈ acc, goodComp c = true) → (∀ c ∈ l, c ≠ "") →
    ∀ c ∈ l.foldl
      (fun acc c => if c = "." then acc else if c = ".." then acc.dropLast else acc ++ [c])
      acc, goodComp c = true := by
  induction l with
  | nil =>
    intro acc hacc hl
    simpa using hacc
  | cons a t ih =>
    intro acc hacc hl
    rw [List.foldl_cons]
    apply ih
    · by_cases h1 : a = "."
      · simpa [h1] using hacc
      · by_cases h2 : a = ".."
        · simp only [h1, h2, if_false, if_true, ite_true, ite_false, reduceIte]
          intro c hc
          exact hacc c (List.dropLast_subset acc hc)
        · simp only [h1, h2, if_false, ite_false, reduceIte]
          intro c hc
          rcases List.mem_append.mp hc with hc1 | hc2
          · exact hacc c hc1
          · have hca : c = a := by simpa using hc2
            have hne : a ≠ "" := hl a (List.mem_cons_self a t)
            rw [hca, goodComp]
            simp [hne, h1, h2]
    · intro c hc
      exact hl c (List.mem_cons_of_mem a hc)

theorem normalizeComponents_good (l : List String) (hl : ∀ c ∈ l, c ≠ "") :
    ∀ c ∈ normalizeComponents l, goodComp c = true := by
  rw [normalizeComponents]
  exact normalizeComponents_aux_good l [] (by simp) hl

/-- Components produced by `splitPath` are nonempty. -/
theorem splitPath_ne_empty (s : String) : ∀ c ∈ splitPath s, c ≠ "" := by
  intro c hc
  rw [splitPath] at hc
  have := List.mem_filter.mp hc
  simpa using this.2

/-- All components of a resolved path are good when the working directory
is well formed. -/
theorem resolvePath_good (fs : FileSystem) (s : String) (hwf : fs.wf) :
    ∀ c ∈ resolvePath fs s, goodComp c = true := by
  rw [resolvePath]
  apply normalizeComponents_good
  intro c hc
  rcases List.mem_append.mp hc with hc1 | hc2
  · by_cases habs : s.data.head? = some '/'
    · rw [if_pos habs] at hc1
      simp at hc1
    · rw [if_neg habs] at hc1
      have := hwf c hc1
      rw [goodComp] at this
      simp only [Bool.and_eq_true, bne_iff_ne, ne_eq] at this
      exact this.1.1
  · exact splitPath_ne_empty s c hc2

/-- Rendered paths are absolute: they begin with `/`. -/
theorem pathToString_abs (cs : List String) :
    (pathToString cs).data.head? = some '/' := by
  rw [pathToString, String.data_append]
  show (['/'] ++ (joinComps cs).data).head? = some '/'
  simp

/-- Substring containment is preserved by prepending text. -/
theorem containsSub_append_right (pat a l : List Char)
    (h : containsSub pat l = true) : containsSub pat (a ++ l) = true := by
  induction a with
  | nil => simpa using h
  | cons c rest ih =>
    rw [List.cons_append, containsSub]
    rw [ih]
    simp

end Cryri

namespace Cryri

/-- C1: expansion of a string leaf first substitutes every occurrence of a
recognized environment-variable token with its value from the environment
snapshot (scanning left to right, values not rescanned), leaves unrecognized
variable names as literal text (not substituted, not erased), and only
afterwards substitutes a leading home-directory marker with the current
user's home directory; if the resulting string still contains `$`, the
non-fatal diagnostic flag is set and the value is still returned as-is. -/
theorem expand_string_leaf_spec (env : List (String × String)) (home : String)
    (users : List (String × String)) :
    (∀ pre nm post (v : String), '$' ∉ pre → wordName nm = true →
      headNotWord post = true → lookupEnv env (String.mk nm) = some v →
      os_path_expandvars env (String.mk (pre ++ '$' :: (nm ++ post)))
        = String.mk (pre ++ (v.data ++ expandVarsAux env post)))
    ∧ (∀ pre nm post, '$' ∉ pre → wordName nm = true → headNotWord post = true →
      lookupEnv env (String.mk nm) = none →
      os_path_expandvars env (String.mk (pre ++ '$' :: (nm ++ post)))
        = String.mk (pre ++ '$' :: (nm ++ expandVarsAux env post)))
    ∧ (∀ s, expandStringLeaf env home users s
        = os_path_expanduser home users (os_path_expandvars env s))
    ∧ (∀ t, os_path_expanduser home users (String.mk ('~' :: '/' :: t))
        = String.mk (rstripSlash home.data ++ '/' :: t))
    ∧ (∀ s, (expandStringLeafLogged env home users s).1 = expandStringLeaf env home users s)
    ∧ (∀ s, (expandStringLeafLogged env home users s).2 = true
        ↔ '$' ∈ (expandStringLeaf env home users s).data) := by
  refine ⟨?_, ?_, ?_, ?_, ?_, ?_⟩
  · intro pre nm post v hpre hnm hpost hv
    show String.mk (expandVarsAux env (pre ++ '$' :: (nm ++ post))) = _
    rw [expandVarsAux_append_clean env pre _ hpre,
      expandVarsAux_token_known env nm post v hnm hpost hv]
  · intro pre nm post hpre hnm hpost hv
    show String.mk (expandVarsAux env (pre ++ '$' :: (nm ++ post))) = _
    rw [expandVarsAux_append_clean env pre _ hpre,
      expandVarsAux_token_unknown env nm post hnm hpost hv]
  · intro s
    rfl
  · intro t
    rw [os_path_expanduser]
    have h3 : (rstripSlash home.data ++ '/' :: t).isEmpty = false := by
      cases rstripSlash home.data <;> rfl
    simp [List.takeWhile, List.dropWhile, h3]
  · intro s
    rw [expandStringLeafLogged]
    by_cases h : '$' ∈ (expandStringLeaf env home users s).data <;> simp [h]
  · intro s
    rw [expandStringLeafLogged]
    by_cases h : '$' ∈ (expandStringLeaf env home users s).data <;> simp [h]

/-- Witness for C1: a recognized `$EV` token is substituted and an
unrecognized `$NO` token is kept literally, inside the same surrounding
text. -/
theorem expand_string_leaf_spec_witness :
    os_path_expandvars [("EV", "VAL")] (String.mk ("ab/".data ++ '$' :: ("EV".data ++ "/tl".data)))
      = String.mk ("ab/".data ++ ("VAL".data ++ expandVarsAux [("EV", "VAL")] "/tl".data))
    ∧ os_path_expandvars [("EV", "VAL")] (String.mk ("ab/".data ++ '$' :: ("NO".data ++ "/tl".data)))
      = String.mk ("ab/".data ++ '$' :: ("NO".data ++ expandVarsAux [("EV", "VAL")] "/tl".data)) :=
  ⟨(expand_string_leaf_spec [("EV", "VAL")] "/home/u" []).1 "ab/".data "EV".data "/tl".data "VAL"
     (by decide) (by decide) (by decide) (by decide),
   (expand_string_leaf_spec [("EV", "VAL")] "/home/u" []).2.1 "ab/".data "NO".data "/tl".data
     (by decide) (by decide) (by decide) (by decide)⟩

/-- C2: the lenient sanitizer maps null to null; for every non-null input
the result is an absolute, normalized path string; and if the resolved path
exists but is not a directory, the result is its parent directory. -/
theorem sanitize_dir_path_spec (fs : FileSystem) (p : String) (hwf : fs.wf) :
    sanitize_dir_path fs none = none
    ∧ (∃ cs, sanitize_dir_path fs (some p) = some (pathToString cs)
        ∧ (∀ c ∈ cs, goodComp c = true)
        ∧ (pathToString cs).data.head? = some '/')
    ∧ (fs.presentAt (resolvePath fs p) = true → fs.isDirAt (resolvePath fs p) = false →
        sanitize_dir_path fs (some p) = some (pathToString ((resolvePath fs p).dropLast))) := by
  refine ⟨rfl, ?_, ?_⟩
  · by_cases hdir : fs.isDirAt (resolvePath fs p) = true
    · refine ⟨resolvePath fs p, ?_, resolvePath_good fs p hwf, pathToString_abs _⟩
      simp [sanitize_dir_path, hdir]
    · refine ⟨(resolvePath fs p).dropLast, ?_, ?_, pathToString_abs _⟩
      · simp only [Bool.not_eq_true] at hdir
        simp [sanitize_dir_path, hdir]
      · intro c hc
        exact resolvePath_good fs p hwf c (List.dropLast_subset _ hc)
  · intro hpres hdir
    simp [sanitize_dir_path, hdir]

/-- Witness for C2 on the concrete filesystem `fsMock` and the path
`file.txt`, which resolves to the existing non-directory
`/mock/dir/file.txt` and is sanitized to its parent `/mock/dir`. -/
theorem sanitize_dir_path_spec_witness :
    fsMock.wf
    ∧ fsMock.presentAt (resolvePath fsMock "file.txt") = true
    ∧ fsMock.isDirAt (resolvePath fsMock "file.txt") = false
    ∧ sanitize_dir_path fsMock (some "file.txt")
        = some (pathToString ((resolvePath fsMock "file.txt").dropLast))
    ∧ sanitize_dir_path fsMock (some "file.txt") = some "/mock/dir" :=
  ⟨by rw [FileSystem.wf]; decide, by decide, by decide,
   (sanitize_dir_path_spec fsMock "file.txt" (by rw [FileSystem.wf]; decide)).2.2
     (by decide) (by decide),
   by decide⟩

/-- C3 counterexample: the strict sanitizer's validation error does not
distinguish the failure reason.  The same path `/a/b.txt` yields the very
same message on a filesystem where it does not exist at all and on one
where it exists as a plain file, and that single message mentions both
"not a directory" and "does not exist" in either case. -/
theorem strict_error_not_distinguishing :
    fsNoFile.presentAt (resolvePath fsNoFile "/a/b.txt") = false
    ∧ fsPlainFile.presentAt (resolvePath fsPlainFile "/a/b.txt") = true
    ∧ fsPlainFile.isDirAt (resolvePath fsPlainFile "/a/b.txt") = false
    ∧ validators_sanitize_dir_path fsNoFile (some "/a/b.txt")
        = Except.error (strictErrMsg ["a", "b.txt"])
    ∧ validators_sanitize_dir_path fsPlainFile (some "/a/b.txt")
        = Except.error (strictErrMsg ["a", "b.txt"])
    ∧ containsSub ("not a directory").data (strictErrMsg ["a", "b.txt"]).data = true
    ∧ containsSub ("does not exist").data (strictErrMsg ["a", "b.txt"]).data = true :=
  ⟨by decide, by decide, by decide, rfl, rfl, by decide, by decide⟩

/-- C3 (amended): under the strict policy, for every non-null input whose
resolved path is not an existing directory, sanitize fails with a
validation error naming the offending resolved path in a single fixed
message that mentions both reasons, "not a directory" and "does not exist",
regardless of which one applies; in particular sanitizing a path resolving
to a non-directory file raises an error mentioning "not a directory". -/
theorem validators_sanitize_strict_error (fs : FileSystem) (p : String)
    (h : fs.isDirAt (resolvePath fs p) = false) :
    validators_sanitize_dir_path fs (some p)
        = Except.error (strictErrMsg (resolvePath fs p))
    ∧ containsSub ("not a directory").data (strictErrMsg (resolvePath fs p)).data = true
    ∧ containsSub ("does not exist").data (strictErrMsg (resolvePath fs p)).data = true := by
  refine ⟨?_, ?_, ?_⟩
  · simp [validators_sanitize_dir_path, h]
  · rw [strictErrMsg, String.data_append, String.data_append]
    rw [List.append_assoc]
    apply containsSub_append_right
    apply containsSub_append_right
    decide
  · rw [strictErrMsg, String.data_append, String.data_append]
    rw [List.append_assoc]
    apply containsSub_append_right
    apply containsSub_append_right
    decide

/-- Witness for the amended C3 on `fsPlainFile`, where `/a/b.txt` exists
but is a plain file. -/
theorem validators_sanitize_strict_error_witness :
    fsPlainFile.isDirAt (resolvePath fsPlainFile "/a/b.txt") = false
    ∧ (validators_sanitize_dir_path fsPlainFile (some "/a/b.txt")
        = Except.error (strictErrMsg (resolvePath fsPlainFile "/a/b.txt"))
      ∧ containsSub ("not a directory").data
          (strictErrMsg (resolvePath fsPlainFile "/a/b.txt")).data = true
      ∧ containsSub ("does not exist").data
          (strictErrMsg (resolvePath fsPlainFile "/a/b.txt")).data = true) :=
  ⟨by decide, validators_sanitize_strict_error fsPlainFile "/a/b.txt" (by decide)⟩

/-- C4: when the explicit description field is set, the base description is
that field verbatim; otherwise the base is derived from the work directory
by stripping the fixed `/home/jovyan` prefix only when it is present at the
start, then replacing every `/` with `-`; in particular with work
directory `/test/dir` and no explicit description the result is
`-test-dir`. -/
theorem create_job_description_base_spec (procEnv : List (String × String)) (cfg : CryConfig) :
    (∀ d, cfg.cloud.description = some d → resolveTeamName procEnv cfg = none →
        create_job_description procEnv cfg = d)
    ∧ (∀ rest, cfg.container.work_dir.data = ("/home/jovyan").data ++ rest →
        jobDescriptionBase cfg = String.mk (replaceAll ("/").data ("-").data rest))
    ∧ (("/home/jovyan").data.isPrefixOf cfg.container.work_dir.data = false →
        jobDescriptionBase cfg
          = String.mk (replaceAll ("/").data ("-").data cfg.container.work_dir.data))
    ∧ (cfg.cloud.description = none → resolveTeamName procEnv cfg = none →
        cfg.container.work_dir = "/test/dir" →
        create_job_description procEnv cfg = "-test-dir") := by
  refine ⟨?_, ?_, ?_, ?_⟩
  · intro d hd ht
    rw [create_job_description, hd, ht]
  · intro rest hrest
    have hpref : ("/home/jovyan").data.isPrefixOf cfg.container.work_dir.data = true := by
      rw [hrest]
      exact List.isPrefixOf_iff_prefix.mpr (List.prefix_append _ _)
    rw [jobDescriptionBase]
    simp only [hpref, if_true, ite_true, reduceIte]
    rw [hrest, List.drop_left]
  · intro hpref
    rw [jobDescriptionBase]
    simp only [hpref, Bool.false_eq_true, if_false, ite_false, reduceIte]
  · intro hd ht hwd
    rw [create_job_description, hd, ht, jobDescriptionBase, hwd]
    simp [replaceAll, List.isPrefixOf]

/-- Witness for C4 at the concrete configuration `cfgTestDir`. -/
theorem create_job_description_base_spec_witness :
    cfgTestDir.cloud.description = none
    ∧ resolveTeamName [] cfgTestDir = none
    ∧ cfgTestDir.container.work_dir = "/test/dir"
    ∧ create_job_description [] cfgTestDir = "-test-dir" :=
  ⟨rfl, rfl, rfl,
   (create_job_description_base_spec [] cfgTestDir).2.2.2 rfl rfl rfl⟩

/-- C5: the job-description builder resolves the team name by preferring a
`TEAM_NAME` entry in the per-job environment mapping, falling back to
`TEAM_NAME` in the process environment, and omitting the team annotation
when neither exists; the returned description is in every case a single
string (the base, with at most the team annotation appended). -/
theorem create_job_description_team_spec (procEnv : List (String × String)) (cfg : CryConfig) :
    (∀ env t, cfg.container.environment = some env → lookupEnv env "TEAM_NAME" = some t →
        resolveTeamName procEnv cfg = some t)
    ∧ (∀ env, cfg.container.environment = some env → lookupEnv env "TEAM_NAME" = none →
        resolveTeamName procEnv cfg = lookupEnv procEnv "TEAM_NAME")
    ∧ (cfg.container.environment = none →
        resolveTeamName procEnv cfg = lookupEnv procEnv "TEAM_NAME")
    ∧ (∀ t, resolveTeamName procEnv cfg = some t →
        create_job_description procEnv cfg
          = (cfg.cloud.description.getD (jobDescriptionBase cfg)) ++ " #" ++ t)
    ∧ (resolveTeamName procEnv cfg = none →
        create_job_description procEnv cfg
          = cfg.cloud.description.getD (jobDescriptionBase cfg)) := by
  refine ⟨?_, ?_, ?_, ?_, ?_⟩
  · intro env t h1 h2
    simp [resolveTeamName, h1, h2]
  · intro env h1 h2
    simp [resolveTeamName, h1, h2]
  · intro h1
    simp [resolveTeamName, h1]
  · intro t ht
    rw [create_job_description, ht]
    cases hd : cfg.cloud.description with
    | none => simp [hd]
    | some d => simp [hd]
  · intro ht
    rw [create_job_description, ht]
    cases hd : cfg.cloud.description with
    | none => simp [hd]
    | some d => simp [hd]

/-- Witness for C5 at the concrete configuration `cfgTeam`, whose per-job
environment carries `TEAM_NAME=test-team`. -/
theorem create_job_description_team_spec_witness :
    resolveTeamName [] cfgTeam = some "test-team"
    ∧ create_job_description [] cfgTeam
        = (cfgTeam.cloud.description.getD (jobDescriptionBase cfgTeam)) ++ " #" ++ "test-team" :=
  ⟨(create_job_description_team_spec [] cfgTeam).1 [("TEAM_NAME", "test-team")] "test-team"
     rfl (by decide),
   (create_job_description_team_spec [] cfgTeam).2.2.2.1 "test-team"
     ((create_job_description_team_spec [] cfgTeam).1 [("TEAM_NAME", "test-team")] "test-team"
       rfl (by decide))⟩

/-- C6: with a non-empty tag list, the final job description is the
(possibly team-annotated) base followed by the tags as space-separated,
hash-prefixed tokens; with tags `["tag1", "tag2"]` it ends with
`#tag1 #tag2`. -/
theorem main_create_job_description_tags_spec (fs : FileSystem)
    (procEnv : List (String × String)) (cfg : CryConfig) (h : cfg.cloud.tags ≠ []) :
    main_create_job_description fs procEnv cfg
      = main_create_job_description fs procEnv (withoutTags cfg)
        ++ " " ++ hashTagJoin cfg.cloud.tags
    ∧ (cfg.cloud.tags = ["tag1", "tag2"] →
      ∃ pre, main_create_job_description fs procEnv cfg = pre ++ "#tag1 #tag2") := by
  have he : cfg.cloud.tags.isEmpty = false := by
    cases hl : cfg.cloud.tags
    · exact absurd hl h
    · rfl
  have h1 : main_create_job_description fs procEnv cfg
      = main_create_job_description fs procEnv (withoutTags cfg)
        ++ " " ++ hashTagJoin cfg.cloud.tags := by
    have hsame : resolveTeamName procEnv (withoutTags cfg) = resolveTeamName procEnv cfg := rfl
    have hdesc : (withoutTags cfg).cloud.description = cfg.cloud.description := rfl
    have hwd : (withoutTags cfg).container.work_dir = cfg.container.work_dir := rfl
    have htag : (withoutTags cfg).cloud.tags = ([] : List String) := rfl
    rw [main_create_job_description, main_create_job_description, hsame, hdesc, hwd, htag]
    simp [he]
  refine ⟨h1, ?_⟩
  intro ht
  refine ⟨main_create_job_description fs procEnv (withoutTags cfg) ++ " ", ?_⟩
  rw [h1, ht]
  rfl

/-- Witness for C6 at the concrete configuration `cfgTags`. -/
theorem main_create_job_description_tags_spec_witness :
    cfgTags.cloud.tags = ["tag1", "tag2"]
    ∧ ∃ pre, main_create_job_description fsMock [] cfgTags = pre ++ "#tag1 #tag2" :=
  ⟨rfl, (main_create_job_description_tags_spec fsMock [] cfgTags (by decide)).2 rfl⟩

/-- The polling loop characterized from an arbitrary retry count `n`. -/
theorem show_logs_poll_aux (statuses : Nat → String) (maxR : Nat) (n : Nat)
    (hn : n ≤ maxR + 1)
    (hpre : ∀ i, i < n → pendingStatuses.contains (statuses i) = true) :
    ∃ k ex, showLogsPoll statuses maxR n = (k, ex)
    ∧ n ≤ k ∧ k ≤ maxR + 1
    ∧ (ex = false → pendingStatuses.contains (statuses k) = false
        ∧ ∀ i, i < k → pendingStatuses.contains (statuses i) = true)
    ∧ (ex = true → k = maxR + 1
        ∧ ∀ i, i ≤ maxR + 1 → pendingStatuses.contains (statuses i) = true) := by
  induction n using showLogsPoll.induct statuses maxR with
  | case1 n h1 h2 =>
    refine ⟨n, true, ?_, le_refl n, hn, ?_, ?_⟩
    · rw [showLogsPoll, if_pos h1, dif_pos h2]
    · intro hf
      simp at hf
    · intro _
      have hk : n = maxR + 1 := by omega
      refine ⟨hk, ?_⟩
      intro i hi
      by_cases hlt : i < n
      · exact hpre i hlt
      · have hin : i = n := by omega
        rw [hin]
        exact h1
  | case2 n h1 h2 ih =>
    have hn2 : n + 1 ≤ maxR + 1 := by omega
    have hpre2 : ∀ i, i < n + 1 → pendingStatuses.contains (statuses i) = true := by
      intro i hi
      by_cases hlt : i < n
      · exact hpre i hlt
      · have hin : i = n := by omega
        rw [hin]
        exact h1
    obtain ⟨k, ex, heq, hk1, hk2, hf, ht⟩ := ih hn2 hpre2
    refine ⟨k, ex, ?_, by omega, hk2, hf, ht⟩
    rw [showLogsPoll, if_pos h1, dif_neg h2]
    exact heq
  | case3 n h1 =>
    refine ⟨n, false, ?_, le_refl n, hn, ?_, ?_⟩
    · rw [showLogsPoll, if_neg h1]
    · intro _
      exact ⟨by simpa using h1, hpre⟩
    · intro ht
      simp at ht

/-- C9: the log-fetch polling loop terminates for every status sequence:
it exits at the first query whose status lies outside the pending set
(`Pending`, `Inqueue`, `Starting`), or with the budget-exhausted branch
after the fixed retry budget is used up while every query so far was
pending, whichever comes first. -/
theorem show_logs_poll_terminates (statuses : Nat → String) (maxR : Nat) :
    ∃ k ex, showLogsPoll statuses maxR 0 = (k, ex)
    ∧ k ≤ maxR + 1
    ∧ (ex = false → pendingStatuses.contains (statuses k) = false
        ∧ ∀ i, i < k → pendingStatuses.contains (statuses i) = true)
    ∧ (ex = true → k = maxR + 1
        ∧ ∀ i, i ≤ maxR + 1 → pendingStatuses.contains (statuses i) = true) := by
  obtain ⟨k, ex, h1, h2, h3, h4, h5⟩ :=
    show_logs_poll_aux statuses maxR 0 (by omega)
      (fun i hi => absurd hi (Nat.not_lt_zero i))
  exact ⟨k, ex, h1, h3, h4, h5⟩

/-- C7: for every input tree (of nulls, scalars, strings, sequences,
mappings) in which no string leaf contains a `$` token and no string leaf
begins with `~`, expansion returns a result structurally equal to the
input. -/
theorem expand_identity_on_clean_trees (env : List (String × String)) (home : String)
    (users : List (String × String)) (v : Value) (h : clean v = true) :
    expand_vars_and_user env home users v = v := by
  induction v using expand_vars_and_user.induct env home users with
  | case1 => exact expand_vnone env home users
  | case2 xs ih =>
    rw [expand_vtuple]
    rw [clean] at h
    simp only [List.all_eq_true, List.mem_attach, forall_const, Subtype.forall] at h
    congr 1
    conv_rhs => rw [show xs = xs.map id from (List.map_id xs).symm]
    apply List.map_congr_left
    intro a ha
    exact ih ⟨a, ha⟩ (h a ha)
  | case3 xs ih =>
    rw [expand_vlist]
    rw [clean] at h
    simp only [List.all_eq_true, List.mem_attach, forall_const, Subtype.forall] at h
    congr 1
    conv_rhs => rw [show xs = xs.map id from (List.map_id xs).symm]
    apply List.map_congr_left
    intro a ha
    exact ih ⟨a, ha⟩ (h a ha)
  | case4 kvs ih =>
    rw [expand_vdict]
    rw [clean] at h
    simp only [List.all_eq_true, List.mem_attach, forall_const, Subtype.forall,
      Bool.and_eq_true] at h
    congr 1
    conv_rhs => rw [show kvs = kvs.map id from (List.map_id kvs).symm]
    apply List.map_congr_left
    intro kv hkv
    have h2 := (h kv hkv).2
    rw [ih ⟨kv, hkv⟩ h2]
    simp
  | case5 s =>
    rw [expand_vstr]
    rw [clean] at h
    rw [expandStringLeaf_id env home users s h]
  | case6 n => exact expand_vint env home users n
  | case7 b => exact expand_vbool env home users b

/-- Witness for C7 at a concrete mixed tree. -/
theorem expand_identity_on_clean_trees_witness :
    clean (Value.vdict [(Value.vint 1, Value.vint 2),
      (Value.vstr "TEST_VAR", Value.vstr "no expansion"),
      (Value.vstr "k", Value.vlist [Value.vnone, Value.vstr "plain",
        Value.vtuple [Value.vbool true]])]) = true
    ∧ expand_vars_and_user [] "/h" [] (Value.vdict [(Value.vint 1, Value.vint 2),
      (Value.vstr "TEST_VAR", Value.vstr "no expansion"),
      (Value.vstr "k", Value.vlist [Value.vnone, Value.vstr "plain",
        Value.vtuple [Value.vbool true]])])
      = Value.vdict [(Value.vint 1, Value.vint 2),
      (Value.vstr "TEST_VAR", Value.vstr "no expansion"),
      (Value.vstr "k", Value.vlist [Value.vnone, Value.vstr "plain",
        Value.vtuple [Value.vbool true]])] :=
  ⟨by simp [clean, cleanStr],
   expand_identity_on_clean_trees [] "/h" [] _ (by simp [clean, cleanStr])⟩

/-- C8: expansion of a sequence or mapping equals the container rebuilt by
applying expansion to each element independently, preserving element order
and insertion order; a tuple input is returned as a tuple of equal arity. -/
theorem expand_structural_homomorphism (env : List (String × String)) (home : String)
    (users : List (String × String)) (xs : List Value) (kvs : List (Value × Value)) :
    expand_vars_and_user env home users (Value.vlist xs)
        = Value.vlist (xs.map (expand_vars_and_user env home users))
    ∧ expand_vars_and_user env home users (Value.vtuple xs)
        = Value.vtuple (xs.map (expand_vars_and_user env home users))
    ∧ expand_vars_and_user env home users (Value.vdict kvs)
        = Value.vdict (kvs.map (fun kv => (kv.1, expand_vars_and_user env home users kv.2)))
    ∧ ∃ ys, expand_vars_and_user env home users (Value.vtuple xs) = Value.vtuple ys
        ∧ ys.length = xs.length :=
  ⟨expand_vlist env home users xs, expand_vtuple env home users xs,
   expand_vdict env home users kvs,
   ⟨xs.map (expand_vars_and_user env home users), expand_vtuple env home users xs,
    List.length_map xs _⟩⟩

/-- C10: expansion of a mapping is applied only to the values — the keys,
their multiplicities and their insertion order are preserved verbatim, even
when a key is a string containing `$` or beginning with `~`. -/
theorem expand_preserves_dict_keys (env : List (String × String)) (home : String)
    (users : List (String × String)) (kvs : List (Value × Value)) (s : String) :
    expand_vars_and_user env home users (Value.vdict kvs)
        = Value.vdict (kvs.map (fun kv => (kv.1, expand_vars_and_user env home users kv.2)))
    ∧ dictKeys (expand_vars_and_user env home users (Value.vdict kvs)) = kvs.map Prod.fst
    ∧ expand_vars_and_user env home users (Value.vdict [(Value.vstr s, Value.vnone)])
        = Value.vdict [(Value.vstr s, Value.vnone)] := by
  refine ⟨expand_vdict env home users kvs, ?_, ?_⟩
  · rw [expand_vdict, dictKeys]
    simp
  · rw [expand_vdict]
    simp [expand_vnone]

end Cryri
